import Mathlib

/-!
Shallow embedding of the ray-tracer math kernel (tuples, matrices, colors,
canvas and its plain-text PPM export).  Rust `f64` values are modelled as
exact rationals, `usize` as `Nat`, and panicking operations return `Option`
(`none` = panic).  Definitions mirror the source files `src/math.rs`,
`src/math/tuple.rs`, `src/math/matrix{,2,3}.rs`, `src/color.rs` and
`src/canvas.rs`.
-/

namespace RayTracing

/-- `float_eq(a, b, eps)` from `src/math.rs`: `(a - b).abs() < eps`. -/
def float_eq (a b eps : ℚ) : Prop := |a - b| < eps

instance (a b eps : ℚ) : Decidable (float_eq a b eps) := by
  unfold float_eq
  infer_instance

/-- `FLOAT_EQ_EPS` from `src/math.rs`: `0.00001`. -/
def FLOAT_EQ_EPS : ℚ := 1 / 100000

/-- `Tuple4D` from `src/math/tuple.rs`. -/
structure Tuple4D where
  x : ℚ
  y : ℚ
  z : ℚ
  w : ℚ
deriving DecidableEq

/-- `Tuple4D::new_point`. -/
def Tuple4D.new_point (x y z : ℚ) : Tuple4D := ⟨x, y, z, 1⟩

/-- `Tuple4D::new_vector`. -/
def Tuple4D.new_vector (x y z : ℚ) : Tuple4D := ⟨x, y, z, 0⟩

/-- `Tuple4D::is_vector`: `float_eq(self.w, 0.0, FLOAT_EQ_EPS)`. -/
def Tuple4D.is_vector (t : Tuple4D) : Prop := float_eq t.w 0 FLOAT_EQ_EPS

/-- `Tuple4D::is_point`: `float_eq(self.w, 1.0, FLOAT_EQ_EPS)`. -/
def Tuple4D.is_point (t : Tuple4D) : Prop := float_eq t.w 1 FLOAT_EQ_EPS

instance (t : Tuple4D) : Decidable t.is_vector := by
  unfold Tuple4D.is_vector
  infer_instance

/-- `Tuple4D::dot`.  The source panics when either operand is not a vector;
the panic is modelled as `none`. -/
def Tuple4D.dot (a other : Tuple4D) : Option ℚ :=
  if ¬ a.is_vector ∨ ¬ other.is_vector then none
  else some (a.x * other.x + a.y * other.y + a.z * other.z)

/-- `Tuple4D::cross`.  The source panics when either operand is not a vector;
the panic is modelled as `none`. -/
def Tuple4D.cross (a other : Tuple4D) : Option Tuple4D :=
  if ¬ a.is_vector ∨ ¬ other.is_vector then none
  else some (Tuple4D.new_vector
    (a.y * other.z - a.z * other.y)
    (a.z * other.x - a.x * other.z)
    (a.x * other.y - a.y * other.x))

/-- `Matrix2` from `src/math/matrix2.rs`: a 2×2 grid of floats. -/
structure Matrix2 where
  data : Fin 2 → Fin 2 → ℚ

/-- `Matrix2::determinant`: `self[[0,0]] * self[[1,1]] - self[[0,1]] * self[[1,0]]`. -/
def Matrix2.determinant (m : Matrix2) : ℚ :=
  m.data 0 0 * m.data 1 1 - m.data 0 1 * m.data 1 0

/-- `Matrix3` from `src/math/matrix3.rs`: a 3×3 grid of floats. -/
structure Matrix3 where
  data : Fin 3 → Fin 3 → ℚ

/-- `Matrix3::submatrix`: delete row `row` and column `col`, compacting the
remaining cells in order (the source's `new_i`/`new_j` loop is the index
embedding `Fin.succAbove`). -/
def Matrix3.submatrix (m : Matrix3) (row col : Fin 3) : Matrix2 :=
  ⟨fun i j => m.data (row.succAbove i) (col.succAbove j)⟩

/-- `Matrix3::minor`: determinant of the submatrix. -/
def Matrix3.minor (m : Matrix3) (row col : Fin 3) : ℚ :=
  (m.submatrix row col).determinant

/-- `Matrix3::cofactor`: the minor, negated when `(row + col) % 2 != 0`. -/
def Matrix3.cofactor (m : Matrix3) (row col : Fin 3) : ℚ :=
  if (row.val + col.val) % 2 ≠ 0 then -(m.minor row col) else m.minor row col

/-- `Matrix3::determinant`: cofactor expansion along row 0. -/
def Matrix3.determinant (m : Matrix3) : ℚ :=
  m.cofactor 0 0 * m.data 0 0 + m.cofactor 0 1 * m.data 0 1
    + m.cofactor 0 2 * m.data 0 2

/-- `Matrix4` from `src/math/matrix.rs`: a 4×4 grid of floats. -/
structure Matrix4 where
  data : Fin 4 → Fin 4 → ℚ

/-- `Matrix4::create_and_fill`. -/
def Matrix4.create_and_fill (v : ℚ) : Matrix4 := ⟨fun _ _ => v⟩

/-- `Matrix4::zeros`. -/
def Matrix4.zeros : Matrix4 := Matrix4.create_and_fill 0

/-- `Matrix4::eye`: zeros with the diagonal set to one. -/
def Matrix4.eye : Matrix4 := ⟨fun i j => if i = j then 1 else 0⟩

/-- `PartialEq for Matrix4`: element-wise tolerance comparison. -/
def Matrix4.eq (a b : Matrix4) : Prop :=
  ∀ i j : Fin 4, float_eq (a.data i j) (b.data i j) FLOAT_EQ_EPS

/-- `Matrix4::transpose`: a new matrix with `[i][j]` set to `self[[j,i]]`. -/
def Matrix4.transpose (m : Matrix4) : Matrix4 := ⟨fun i j => m.data j i⟩

/-- `Matrix4::submatrix`: delete row `row` and column `col`, compacting the
remaining cells in order. -/
def Matrix4.submatrix (m : Matrix4) (row col : Fin 4) : Matrix3 :=
  ⟨fun i j => m.data (row.succAbove i) (col.succAbove j)⟩

/-- `Matrix4::minor`: determinant of the submatrix. -/
def Matrix4.minor (m : Matrix4) (row col : Fin 4) : ℚ :=
  (m.submatrix row col).determinant

/-- `Matrix4::cofactor`: the minor, negated when `(row + col) % 2 != 0`. -/
def Matrix4.cofactor (m : Matrix4) (row col : Fin 4) : ℚ :=
  if (row.val + col.val) % 2 ≠ 0 then -(m.minor row col) else m.minor row col

/-- `Matrix4::determinant`: cofactor expansion along row 0. -/
def Matrix4.determinant (m : Matrix4) : ℚ :=
  m.cofactor 0 0 * m.data 0 0 + m.cofactor 0 1 * m.data 0 1
    + m.cofactor 0 2 * m.data 0 2 + m.cofactor 0 3 * m.data 0 3

/-- `Matrix4::inverse`: `None` when the determinant is tolerance-equal to
zero, otherwise the matrix filled by `inverse[[j,i]] = cofactor(i,j) / det`. -/
def Matrix4.inverse (m : Matrix4) : Option Matrix4 :=
  let det := m.determinant
  if float_eq det 0 FLOAT_EQ_EPS then none
  else some ⟨fun j i => m.cofactor i j / det⟩

/-- `Color` from `src/color.rs`. -/
structure Color where
  r : ℚ
  g : ℚ
  b : ℚ
deriving DecidableEq

/-- `Vec2D<T>` from `src/canvas.rs`. -/
structure Vec2D (T : Type) where
  data : List T
  width : ℕ
  height : ℕ
deriving DecidableEq

/-- `Canvas = Vec2D<Color>`. -/
abbrev Canvas := Vec2D Color

/-- `Canvas::create_canvas`: `width * height` cells, all black. -/
def create_canvas (width height : ℕ) : Canvas :=
  ⟨List.replicate (width * height) ⟨0, 0, 0⟩, width, height⟩

/-- `Canvas::write_pixel(x, y, color)`: sets `data[self.width * y + x]`.
The source's vector indexing panics when the index is out of range; the
panic is modelled as `none`.  (The source names its parameters `width` and
`height`; they are the `x` and `y` coordinates.) -/
def write_pixel (can : Canvas) (x y : ℕ) (color : Color) : Option Canvas :=
  let idx := can.width * y
  if idx + x < can.data.length then
    some ⟨can.data.set (idx + x) color, can.width, can.height⟩
  else none

/-- `Canvas::read_pixel(x, y)`: reads `data[self.width * y + x]`; an
out-of-range index panics, modelled as `none`. -/
def read_pixel (can : Canvas) (x y : ℕ) : Option Color :=
  can.data[can.width * y + x]?

/-- Decimal digits of `n`, most significant first, with explicit fuel
(`fuel > n` suffices).  Models the `Display` formatting `"{}"` used by
`write!` in `to_ppm_str`. -/
def decReprAux : ℕ → ℕ → List Char
  | 0, _ => []
  | fuel + 1, n =>
    if n < 10 then [Nat.digitChar n]
    else decReprAux fuel (n / 10) ++ [Nat.digitChar (n % 10)]

/-- Decimal representation of `n` as a character list. -/
def decRepr (n : ℕ) : List Char := decReprAux (n + 1) n

/-- `f64::round` as used in `to_ppm_str`: round half away from zero. -/
def rustRound (q : ℚ) : ℤ :=
  if 0 ≤ q then ⌊q + 1 / 2⌋ else -⌊-q + 1 / 2⌋

/-- One channel conversion in `to_ppm_str`:
`(channel * 255.0).round().clamp(0.0, 255.0) as u8`. -/
def toByte (q : ℚ) : ℕ := (min 255 (max 0 (rustRound (q * 255)))).toNat

/-- The three converted channel values `[r, g, b]` of one pixel. -/
def channelBytes (c : Color) : List ℕ :=
  [toByte c.r, toByte c.g, toByte c.b]

/-- The `chars_to_be_added` computation in `to_ppm_str`: the digit count of
the value (`match value { 0..=9 => 1, 10..=99 => 2, _ => 3 }`) plus one for
the separator. -/
def charsToBeAdded (v : ℕ) : ℕ :=
  (if v ≤ 9 then 1 else if v ≤ 99 then 2 else 3) + 1

/-- The body of the inner `for value in color_values` loop of `to_ppm_str`
(src/canvas.rs lines 66–81), acting on the pair (string so far, running
character count). -/
def writeChannel (st : List Char × ℕ) (v : ℕ) : List Char × ℕ :=
  let cost := charsToBeAdded v
  if 70 < st.2 + cost then
    (st.1.dropLast ++ '\n' :: (decRepr v ++ [' ']), cost)
  else
    (st.1 ++ (decRepr v ++ [' ']), st.2 + cost)

/-- One iteration of the outer pixel loop of `to_ppm_str`: emit the three
channels, then if `(idx + 1) % width == 0` replace the trailing separator
with a newline and reset the running count. -/
def writePixel (width : ℕ) (st : List Char × ℕ) (idx : ℕ) (c : Color) :
    List Char × ℕ :=
  let st1 := (channelBytes c).foldl writeChannel st
  if (idx + 1) % width = 0 then (st1.1.dropLast ++ ['\n'], 0) else st1

/-- The outer `for (idx, color) in self.data.iter().enumerate()` loop of
`to_ppm_str`. -/
def writePixels (width : ℕ) (st : List Char × ℕ) (idx : ℕ) :
    List Color → List Char × ℕ
  | [] => st
  | c :: rest => writePixels width (writePixel width st idx c) (idx + 1) rest

/-- The three header lines of `to_ppm_str`: `P3`, `{width} {height}`, `255`. -/
def ppmHeader (w h : ℕ) : List Char :=
  ['P', '3', '\n'] ++ (decRepr w ++ [' '] ++ decRepr h ++ ['\n'])
    ++ ['2', '5', '5', '\n']

/-- `Canvas::to_ppm_str` (src/canvas.rs lines 50–91).  The source returns
`Result<String, fmt::Error>` but `write!` into a `String` never fails, so
the result is modelled as the string itself. -/
def to_ppm_str (can : Canvas) : String :=
  String.mk (writePixels can.width (ppmHeader can.width can.height, 0) 0 can.data).1

/-- Spec-side channel emitter, following the words of §4.5 step 4 of the
specification: before appending a value+separator pair, if
`current_count + (digits_in_value + 1) > 70`, replace the most recently
written separator with a newline and reset the running count to the width
of the token about to be written (its digits plus its separator), then
append the value and its separator. -/
def specWriteChannel (st : List Char × ℕ) (v : ℕ) : List Char × ℕ :=
  let token := decRepr v ++ [' ']
  if 70 < st.2 + ((decRepr v).length + 1) then
    (st.1.dropLast ++ ['\n'] ++ token, (decRepr v).length + 1)
  else
    (st.1 ++ token, st.2 + ((decRepr v).length + 1))

/-- Spec-side row boundary, following the words of §4.5 step 5 of the
specification: whenever the count of pixels just finished (`idx + 1`) is a
multiple of `width`, replace the trailing separator with a newline and
reset the running column count to zero, regardless of the column budget. -/
def specRowBoundary (width idx : ℕ) (st : List Char × ℕ) : List Char × ℕ :=
  if (idx + 1) % width = 0 then (st.1.dropLast ++ ['\n'], 0) else st

/-- `s` occurs as a contiguous segment of `l`.  A "line" of the output is a
maximal newline-free segment, so "no line exceeds 70 characters" is
exactly "every newline-free contiguous segment has length ≤ 70". -/
def SubSeg (s l : List Char) : Prop := ∃ a b, l = a ++ s ++ b

/-- A character list that is a sequence of newline-terminated lines, each
line at most 70 characters and newline-free. -/
inductive LinesTerm : List Char → Prop
  | nil : LinesTerm []
  | cons (line rest : List Char) :
      '\n' ∉ line → line.length ≤ 70 → LinesTerm rest →
      LinesTerm (line ++ '\n' :: rest)

/-- Loop invariant of the `to_ppm_str` encoder: the emitted text is a block
of complete (newline-terminated, ≤ 70 character) lines followed by the
current unterminated line, whose length is exactly the running character
count, which never exceeds 70. -/
def EncInv (l : List Char) (cnt : ℕ) : Prop :=
  ∃ done cur, l = done ++ cur ∧ LinesTerm done ∧ '\n' ∉ cur ∧
    cur.length = cnt ∧ cnt ≤ 70

section

attribute [local semireducible] Rat.add Rat.mul Rat.inv Rat.sub

set_option maxRecDepth 10000

theorem digitChar_ne_newline : ∀ n : ℕ, n < 10 → Nat.digitChar n ≠ '\n' := by
  decide

theorem newline_notMem_decReprAux (fuel n : ℕ) : '\n' ∉ decReprAux fuel n := by
  induction fuel generalizing n with
  | zero => simp [decReprAux]
  | succ f ih =>
    unfold decReprAux
    split <;> rename_i hlt
    · simpa using (digitChar_ne_newline n hlt).symm
    · simp only [List.mem_append, List.mem_singleton]
      rintro (h | h)
      · exact ih _ h
      · exact (digitChar_ne_newline _ (Nat.mod_lt _ (by omega))) h.symm

theorem newline_notMem_decRepr (n : ℕ) : '\n' ∉ decRepr n :=
  newline_notMem_decReprAux _ _

theorem decRepr_length_byte : ∀ v : ℕ, v < 256 →
    (decRepr v).length + 1 = charsToBeAdded v := by decide

theorem charsToBeAdded_ge_two (v : ℕ) : 2 ≤ charsToBeAdded v := by
  unfold charsToBeAdded
  repeat' split
  all_goals omega

theorem charsToBeAdded_le_four (v : ℕ) : charsToBeAdded v ≤ 4 := by
  unfold charsToBeAdded
  repeat' split
  all_goals omega

/-- C2: in `to_ppm_str`, each channel emission follows §4.5 step 4 of the
specification: before appending a value+separator pair, if the running
count plus (digits in the value + 1) exceeds 70, the most recently written
separator is replaced by a newline and the running count is reset to the
width of the about-to-be-written token (not to zero), after which the
value and its separator are appended; channel values are bytes (≤ 255). -/
theorem claim_C2 (st : List Char × ℕ) (v : ℕ) (hv : v ≤ 255) :
    writeChannel st v = specWriteChannel st v := by
  unfold writeChannel specWriteChannel
  rw [← decRepr_length_byte v (by omega)]
  simp [List.append_assoc]

theorem claim_C2_witness :
    (200 ≤ 255 ∧ writeChannel (['x'], 68) 200 = specWriteChannel (['x'], 68) 200) :=
  ⟨by omega, claim_C2 (['x'], 68) 200 (by omega)⟩

/-- C4: each iteration of the pixel loop of `to_ppm_str` is the three
channel emissions followed by §4.5 step 5 of the specification: whenever
the count of pixels just finished (`idx + 1`) is a multiple of `width`,
the trailing separator is replaced by a newline and the running column
count resets to zero, unconditionally in the 70-column budget. -/
theorem claim_C4 (width : ℕ) (st : List Char × ℕ) (idx : ℕ) (c : Color) :
    writePixel width st idx c
      = specRowBoundary width idx ((channelBytes c).foldl writeChannel st) := rfl

/-- C5: `Matrix2::determinant` is `a*d - b*c`; `Matrix3::determinant` and
`Matrix4::determinant` are the row-0 cofactor expansions
`Σ_j cofactor(0,j) * self[0][j]`, and `cofactor(row,col)` is the
determinant of `submatrix(row,col)` negated exactly when `row + col` is
odd. -/
theorem claim_C5 (m2 : Matrix2) (m3 : Matrix3) (m4 : Matrix4) :
    m2.determinant = m2.data 0 0 * m2.data 1 1 - m2.data 0 1 * m2.data 1 0 ∧
    m3.determinant = ∑ j : Fin 3, m3.cofactor 0 j * m3.data 0 j ∧
    m4.determinant = ∑ j : Fin 4, m4.cofactor 0 j * m4.data 0 j ∧
    (∀ r c : Fin 3, m3.cofactor r c =
      if (r.val + c.val) % 2 = 1 then -(m3.submatrix r c).determinant
      else (m3.submatrix r c).determinant) ∧
    (∀ r c : Fin 4, m4.cofactor r c =
      if (r.val + c.val) % 2 = 1 then -(m4.submatrix r c).determinant
      else (m4.submatrix r c).determinant) := by
  refine ⟨rfl, ?_, ?_, ?_, ?_⟩
  · rw [Fin.sum_univ_three]
    rfl
  · rw [Fin.sum_univ_four]
    rfl
  · intro r c
    unfold Matrix3.cofactor Matrix3.minor
    rcases Nat.mod_two_eq_zero_or_one (r.val + c.val) with h | h <;>
      simp [h]
  · intro r c
    unfold Matrix4.cofactor Matrix4.minor
    rcases Nat.mod_two_eq_zero_or_one (r.val + c.val) with h | h <;>
      simp [h]

/-- C6: `Tuple4D::dot` and `Tuple4D::cross` panic (modelled as `none`)
exactly when at least one operand `t` has `|t.w - 0| ≥ 1e-5`; on two
vectors `dot` is the 3-component dot product (w excluded) and `cross` is
the standard 3D cross product, ignoring `w`. -/
theorem claim_C6 (a b : Tuple4D) :
    (a.dot b = none ↔ (FLOAT_EQ_EPS ≤ |a.w - 0| ∨ FLOAT_EQ_EPS ≤ |b.w - 0|)) ∧
    (a.cross b = none ↔ (FLOAT_EQ_EPS ≤ |a.w - 0| ∨ FLOAT_EQ_EPS ≤ |b.w - 0|)) ∧
    (a.is_vector → b.is_vector →
      a.dot b = some (a.x * b.x + a.y * b.y + a.z * b.z) ∧
      a.cross b = some (Tuple4D.new_vector (a.y * b.z - a.z * b.y)
        (a.z * b.x - a.x * b.z) (a.x * b.y - a.y * b.x))) := by
  have key : (¬ a.is_vector ∨ ¬ b.is_vector)
      ↔ (FLOAT_EQ_EPS ≤ |a.w - 0| ∨ FLOAT_EQ_EPS ≤ |b.w - 0|) := by
    unfold Tuple4D.is_vector float_eq
    rw [not_lt, not_lt]
  refine ⟨?_, ?_, ?_⟩
  · unfold Tuple4D.dot
    split <;> rename_i h
    · simpa using key.mp h
    · simp only [reduceCtorEq, false_iff]
      intro hc
      exact h (key.mpr hc)
  · unfold Tuple4D.cross
    split <;> rename_i h
    · simpa using key.mp h
    · simp only [reduceCtorEq, false_iff]
      intro hc
      exact h (key.mpr hc)
  · intro ha hb
    unfold Tuple4D.dot Tuple4D.cross
    rw [if_neg (by push_neg; exact ⟨ha, hb⟩), if_neg (by push_neg; exact ⟨ha, hb⟩)]
    exact ⟨rfl, rfl⟩

theorem claim_C6_witness :
    (Tuple4D.new_vector 1 2 3).dot (Tuple4D.new_vector 2 3 4)
        = some ((1 : ℚ) * 2 + 2 * 3 + 3 * 4) ∧
      (Tuple4D.new_vector 1 2 3).cross (Tuple4D.new_vector 2 3 4)
        = some (Tuple4D.new_vector ((2 : ℚ) * 4 - 3 * 3) (3 * 2 - 1 * 4)
            (1 * 3 - 2 * 2)) :=
  claim_C6 (Tuple4D.new_vector 1 2 3) (Tuple4D.new_vector 2 3 4) |>.2.2
    (by decide) (by decide)

/-- C8: for every `Matrix4`, `transpose(transpose(M))` equals `M` under the
element-wise tolerance comparison with epsilon `1e-5`. -/
theorem claim_C8 (m : Matrix4) : Matrix4.eq m.transpose.transpose m := by
  intro i j
  unfold Matrix4.transpose float_eq FLOAT_EQ_EPS
  simp only [sub_self, abs_zero]
  norm_num

/-- C1: the canvas built by `create_canvas(5,3)` followed by
`write_pixel(0,0,Color(1.5,0,0))`, `write_pixel(2,1,Color(0,0.5,0))` and
`write_pixel(4,2,Color(-0.5,0,1.0))` exports, via `to_ppm_str`, exactly
the expected PPM text: each channel byte is `round(channel * 255)` clamped
into `[0,255]`, channels emitted r, g, b in row-major pixel order. -/
theorem claim_C1 :
    (Option.map to_ppm_str (do
      let c1 ← write_pixel (create_canvas 5 3) 0 0 ⟨3 / 2, 0, 0⟩
      let c2 ← write_pixel c1 2 1 ⟨0, 1 / 2, 0⟩
      write_pixel c2 4 2 ⟨-(1 / 2), 0, 1⟩))
    = some "P3\n5 3\n255\n255 0 0 0 0 0 0 0 0 0 0 0 0 0 0\n0 0 0 0 0 0 0 128 0 0 0 0 0 0 0\n0 0 0 0 0 0 0 0 0 0 0 0 0 0 255\n" := by
  decide

/-- C3: `Matrix4::inverse` returns `None` exactly when the determinant is
tolerance-equal to zero (`|det| < 1e-5`), otherwise `Some inv` with
`inv[j][i] = cofactor(i,j) / det` (the transposed index assignment); it
never panics (the embedding is total: the result is always `none` or
`some`). -/
theorem claim_C3 (m : Matrix4) :
    (m.inverse = none ↔ float_eq m.determinant 0 FLOAT_EQ_EPS) ∧
    (∀ minv, m.inverse = some minv →
      ∀ i j : Fin 4, minv.data j i = m.cofactor i j / m.determinant) := by
  constructor
  · unfold Matrix4.inverse
    dsimp only
    split <;> rename_i h
    · simpa using h
    · simpa using h
  · intro minv hm i j
    unfold Matrix4.inverse at hm
    dsimp only at hm
    split at hm <;> rename_i h
    · exact absurd hm (by simp)
    · injection hm with h2
      subst h2
      rfl

theorem claim_C3_witness :
    (Matrix4.zeros.inverse = none ↔
        float_eq Matrix4.zeros.determinant 0 FLOAT_EQ_EPS) ∧
      (∀ minv, Matrix4.zeros.inverse = some minv →
        ∀ i j : Fin 4,
          minv.data j i = Matrix4.zeros.cofactor i j / Matrix4.zeros.determinant) :=
  claim_C3 Matrix4.zeros

/-- C9: writing an in-range pixel succeeds, makes `read_pixel` at the same
coordinates return exactly the written color, leaves every other in-range
pixel unchanged, and preserves width, height and data length. -/
theorem claim_C9 (can : Canvas) (x y : ℕ) (c : Color)
    (hx : x < can.width) (hy : y < can.height)
    (hlen : can.data.length = can.width * can.height) :
    ∃ can2, write_pixel can x y c = some can2 ∧
      read_pixel can2 x y = some c ∧
      (∀ x2 y2, x2 < can.width → y2 < can.height → (x2, y2) ≠ (x, y) →
        read_pixel can2 x2 y2 = read_pixel can x2 y2) ∧
      can2.width = can.width ∧ can2.height = can.height ∧
      can2.data.length = can.data.length := by
  have hidx : can.width * y + x < can.data.length := by
    rw [hlen]
    calc can.width * y + x < can.width * (y + 1) := by
          rw [Nat.mul_succ]
          omega
      _ ≤ can.width * can.height := Nat.mul_le_mul_left _ hy
  refine ⟨⟨can.data.set (can.width * y + x) c, can.width, can.height⟩,
    ?_, ?_, ?_, rfl, rfl, by simp⟩
  · unfold write_pixel
    rw [if_pos hidx]
  · unfold read_pixel
    exact List.getElem?_set_self (by simpa using hidx)
  · intro x2 y2 hx2 hy2 hne
    unfold read_pixel
    dsimp only
    apply List.getElem?_set_ne
    intro he
    apply hne
    have hw : 0 < can.width := by omega
    have hxx : x = x2 := by
      have h1 := congrArg (· % can.width) he
      simpa [Nat.mul_add_mod, Nat.mod_eq_of_lt hx, Nat.mod_eq_of_lt hx2] using h1
    subst hxx
    have hyy : y = y2 := Nat.eq_of_mul_eq_mul_left hw (by omega)
    simp [hyy]

theorem claim_C9_witness :
    ∃ can2, write_pixel (create_canvas 3 2) 1 1 ⟨1, 2, 3⟩ = some can2 ∧
      read_pixel can2 1 1 = some ⟨1, 2, 3⟩ ∧
      (∀ x2 y2, x2 < (create_canvas 3 2).width → y2 < (create_canvas 3 2).height →
        (x2, y2) ≠ (1, 1) →
        read_pixel can2 x2 y2 = read_pixel (create_canvas 3 2) x2 y2) ∧
      can2.width = (create_canvas 3 2).width ∧
      can2.height = (create_canvas 3 2).height ∧
      can2.data.length = (create_canvas 3 2).data.length :=
  claim_C9 (create_canvas 3 2) 1 1 ⟨1, 2, 3⟩ (by decide) (by decide) (by decide)

/-- C10: `write_pixel(x, y, c)` and `read_pixel(x, y)` panic (modelled as
`none`) exactly when the linear index `y*width + x` is at least
`width*height`; an `x ≥ width` whose linear index is still in range does
not panic but silently accesses the pixel at linear index `y*width + x` —
concretely, on a 2×2 canvas, writing at `(2, 0)` lands on pixel `(0, 1)`. -/
theorem claim_C10 (can : Canvas) (x y : ℕ) (c : Color)
    (hlen : can.data.length = can.width * can.height) :
    (write_pixel can x y c = none ↔ can.width * can.height ≤ can.width * y + x) ∧
    (read_pixel can x y = none ↔ can.width * can.height ≤ can.width * y + x) ∧
    (∀ can2, write_pixel can x y c = some can2 →
      can2.data = can.data.set (can.width * y + x) c) ∧
    (∃ can2, write_pixel (create_canvas 2 2) 2 0 ⟨1, 1, 1⟩ = some can2 ∧
      read_pixel can2 0 1 = some ⟨1, 1, 1⟩) := by
  refine ⟨?_, ?_, ?_, ?_⟩
  · unfold write_pixel
    dsimp only
    split <;> rename_i h <;> simp <;> omega
  · unfold read_pixel
    rw [List.getElem?_eq_none_iff]
    omega
  · intro can2 h
    unfold write_pixel at h
    dsimp only at h
    split at h
    · injection h with h2
      rw [← h2]
    · exact absurd h (by simp)
  · refine ⟨⟨(create_canvas 2 2).data.set 2 ⟨1, 1, 1⟩, 2, 2⟩, by decide, by decide⟩

theorem linesTerm_append (a b : List Char) (ha : LinesTerm a) (hb : LinesTerm b) :
    LinesTerm (a ++ b) := by
  induction ha with
  | nil => simpa
  | cons line rest h1 h2 hr ih =>
    have e : (line ++ '\n' :: rest) ++ b = line ++ '\n' :: (rest ++ b) := by simp
    rw [e]
    exact LinesTerm.cons line (rest ++ b) h1 h2 ih

theorem linesTerm_line (line : List Char) (h1 : '\n' ∉ line)
    (h2 : line.length ≤ 70) : LinesTerm (line ++ ['\n']) :=
  LinesTerm.cons line [] h1 h2 LinesTerm.nil

theorem linesTerm_getLast (l : List Char) (h : LinesTerm l) (hne : l ≠ []) :
    l.getLast? = some '\n' := by
  induction h with
  | nil => exact absurd rfl hne
  | cons line rest h1 h2 hr ih =>
    cases hrest : rest with
    | nil =>
      subst hrest
      exact List.getLast?_concat line
    | cons e rest2 =>
      subst hrest
      rw [List.getLast?_append, List.getLast?_cons_cons, ih (by simp)]
      rfl

theorem seg_of_append_cons (line rest a s b : List Char)
    (h : a ++ (s ++ b) = line ++ '\n' :: rest) (hs : '\n' ∉ s) :
    (∃ a2 b2, line = a2 ++ (s ++ b2)) ∨ (∃ a2 b2, rest = a2 ++ (s ++ b2)) := by
  rcases List.append_eq_append_iff.mp h with ⟨c, hc1, hc2⟩ | ⟨c, hc1, hc2⟩
  · rcases List.append_eq_append_iff.mp hc2 with ⟨d, hd1, hd2⟩ | ⟨d, hd1, hd2⟩
    · left
      exact ⟨a, d, by rw [hc1, hd1]⟩
    · cases d with
      | nil =>
        left
        have hcs : c = s := by simpa using hd1.symm
        exact ⟨a, [], by rw [hc1, hcs]; simp⟩
      | cons e d2 =>
        exfalso
        apply hs
        injection hd2 with h1 h2
        rw [hd1, ← h1]
        simp
  · cases c with
    | nil =>
      cases s with
      | nil =>
        right
        exact ⟨[], rest, by simp⟩
      | cons e s2 =>
        exfalso
        simp only [List.nil_append, List.cons_append] at hc2
        injection hc2 with h1 h2
        exact hs (by rw [← h1]; simp)
    | cons e c2 =>
      right
      simp only [List.cons_append] at hc2
      injection hc2 with h1 h2
      exact ⟨c2, b, h2⟩

theorem linesTerm_seg_bound (done : List Char) (hd : LinesTerm done) :
    ∀ cur, '\n' ∉ cur → cur.length ≤ 70 →
      ∀ a s b, done ++ cur = a ++ (s ++ b) → '\n' ∉ s → s.length ≤ 70 := by
  induction hd with
  | nil =>
    intro cur hc hclen a s b heq hs
    have hl : cur.length = a.length + (s.length + b.length) := by
      simpa using congrArg List.length heq
    omega
  | cons line rest h1 h2 hr ih =>
    intro cur hc hclen a s b heq hs
    have heq2 : a ++ (s ++ b) = line ++ '\n' :: (rest ++ cur) := by
      rw [← heq]
      simp [List.append_assoc]
    rcases seg_of_append_cons line (rest ++ cur) a s b heq2 hs with
      ⟨a2, b2, hl⟩ | ⟨a2, b2, hl⟩
    · have hll : line.length = a2.length + (s.length + b2.length) := by
        simpa using congrArg List.length hl
      omega
    · exact ih cur hc hclen a2 s b2 hl hs

theorem encInv_append_token (l : List Char) (cnt : ℕ) (t : List Char)
    (h : EncInv l cnt) (ht : '\n' ∉ t) (hle : cnt + t.length ≤ 70) :
    EncInv (l ++ t) (cnt + t.length) := by
  obtain ⟨done, cur, rfl, hdone, hcur, hlen, _⟩ := h
  exact ⟨done, cur ++ t, by simp, hdone, List.not_mem_append hcur ht,
    by simp [hlen], hle⟩

theorem encInv_wrap (l : List Char) (cnt : ℕ) (t : List Char)
    (h : EncInv l cnt) (hcnt : 1 ≤ cnt) (ht : '\n' ∉ t) (htle : t.length ≤ 70) :
    EncInv (l.dropLast ++ '\n' :: t) t.length := by
  obtain ⟨done, cur, rfl, hdone, hcur, hlen, hle⟩ := h
  have hcur_ne : cur ≠ [] := by
    intro h0
    rw [h0] at hlen
    simp at hlen
    omega
  refine ⟨done ++ (cur.dropLast ++ ['\n']), t, ?_, ?_, ht, rfl, htle⟩
  · rw [List.dropLast_append_of_ne_nil _ hcur_ne]
    simp [List.append_assoc]
  · refine linesTerm_append _ _ hdone (linesTerm_line _ ?_ ?_)
    · exact fun hm => hcur (List.Sublist.mem hm (List.dropLast_sublist cur))
    · rw [List.length_dropLast]
      omega

theorem encInv_rowend (l : List Char) (cnt : ℕ)
    (h : EncInv l cnt) (hcnt : 1 ≤ cnt) :
    EncInv (l.dropLast ++ ['\n']) 0 ∧
      (l.dropLast ++ ['\n']).getLast? = some '\n' := by
  obtain ⟨done, cur, rfl, hdone, hcur, hlen, hle⟩ := h
  have hcur_ne : cur ≠ [] := by
    intro h0
    rw [h0] at hlen
    simp at hlen
    omega
  constructor
  · refine ⟨done ++ (cur.dropLast ++ ['\n']), [], ?_, ?_, by simp, rfl, by omega⟩
    · rw [List.dropLast_append_of_ne_nil _ hcur_ne]
      simp [List.append_assoc]
    · refine linesTerm_append _ _ hdone (linesTerm_line _ ?_ ?_)
      · exact fun hm => hcur (List.Sublist.mem hm (List.dropLast_sublist cur))
      · rw [List.length_dropLast]
        omega
  · exact List.getLast?_concat _

theorem writeChannel_inv (st : List Char × ℕ) (v : ℕ) (hv : v ≤ 255)
    (h : EncInv st.1 st.2) :
    EncInv (writeChannel st v).1 (writeChannel st v).2 ∧
      2 ≤ (writeChannel st v).2 := by
  have hlen_tok : (decRepr v ++ [' ']).length = charsToBeAdded v := by
    have hb := decRepr_length_byte v (by omega)
    simp only [List.length_append, List.length_singleton]
    omega
  have htok : '\n' ∉ decRepr v ++ [' '] := by
    simp only [List.mem_append, List.mem_singleton]
    rintro (hm | hm)
    · exact newline_notMem_decRepr v hm
    · exact absurd hm (by decide)
  have h2c := charsToBeAdded_ge_two v
  have h4c := charsToBeAdded_le_four v
  unfold writeChannel
  dsimp only
  split <;> rename_i hif
  · refine ⟨?_, h2c⟩
    have hw := encInv_wrap st.1 st.2 (decRepr v ++ [' ']) h (by omega) htok
      (by rw [hlen_tok]; omega)
    simpa [hlen_tok] using hw
  · refine ⟨?_, by dsimp; omega⟩
    have ha := encInv_append_token st.1 st.2 (decRepr v ++ [' ']) h htok
      (by rw [hlen_tok]; omega)
    simpa [hlen_tok] using ha

theorem toByte_le (q : ℚ) : toByte q ≤ 255 := by
  unfold toByte
  omega

theorem channels_inv (st : List Char × ℕ) (c : Color)
    (h : EncInv st.1 st.2) :
    EncInv ((channelBytes c).foldl writeChannel st).1
        ((channelBytes c).foldl writeChannel st).2 ∧
      2 ≤ ((channelBytes c).foldl writeChannel st).2 := by
  simp only [channelBytes, List.foldl]
  have h1 := writeChannel_inv st (toByte c.r) (toByte_le _) h
  have h2 := writeChannel_inv _ (toByte c.g) (toByte_le _) h1.1
  exact writeChannel_inv _ (toByte c.b) (toByte_le _) h2.1

theorem writePixel_inv (width : ℕ) (st : List Char × ℕ) (idx : ℕ) (c : Color)
    (h : EncInv st.1 st.2) :
    EncInv (writePixel width st idx c).1 (writePixel width st idx c).2 ∧
      ((idx + 1) % width = 0 →
        (writePixel width st idx c).1.getLast? = some '\n') := by
  obtain ⟨h1, h2⟩ := channels_inv st c h
  unfold writePixel
  dsimp only
  split <;> rename_i hif
  · have hr := encInv_rowend _ _ h1 (by omega)
    exact ⟨hr.1, fun _ => hr.2⟩
  · exact ⟨h1, fun hc => absurd hc hif⟩

theorem writePixels_inv (width : ℕ) :
    ∀ (r : List Color) (st : List Char × ℕ) (idx : ℕ),
      EncInv st.1 st.2 → (idx + r.length) % width = 0 →
      EncInv (writePixels width st idx r).1 (writePixels width st idx r).2 ∧
        (r ≠ [] → (writePixels width st idx r).1.getLast? = some '\n') := by
  intro r
  induction r with
  | nil => exact fun st idx h _ => ⟨h, fun hne => absurd rfl hne⟩
  | cons c rest ih =>
    intro st idx h hmod
    simp only [writePixels]
    have hmod2 : (idx + 1 + rest.length) % width = 0 := by
      have e : idx + 1 + rest.length = idx + (c :: rest).length := by
        simp
        omega
      rw [e]
      exact hmod
    obtain ⟨hp1, hp2⟩ := writePixel_inv width st idx c h
    obtain ⟨hi1, hi2⟩ := ih (writePixel width st idx c) (idx + 1) hp1 hmod2
    refine ⟨hi1, fun _ => ?_⟩
    by_cases hrest : rest = []
    · subst hrest
      simp only [writePixels]
      apply hp2
      simpa using hmod
    · exact hi2 hrest

theorem decReprAux_length_le :
    ∀ (fuel n k : ℕ), n < 10 ^ k → 1 ≤ k → (decReprAux fuel n).length ≤ k := by
  intro fuel
  induction fuel with
  | zero =>
    intro n k _ hk
    simp [decReprAux]
  | succ f ih =>
    intro n k hn hk
    unfold decReprAux
    split <;> rename_i h10
    · simpa using hk
    · simp only [List.length_append, List.length_singleton]
      have hk2 : 2 ≤ k := by
        by_contra hlt
        have hk1 : k = 1 := by omega
        subst hk1
        rw [pow_one] at hn
        exact h10 hn
      have hdiv : n / 10 < 10 ^ (k - 1) := by
        apply Nat.div_lt_of_lt_mul
        calc n < 10 ^ k := hn
          _ = 10 * 10 ^ (k - 1) := by
              rw [← pow_succ']
              congr 1
              omega
      have hrec := ih (n / 10) (k - 1) hdiv (by omega)
      omega

theorem header_inv (w h : ℕ) (hw : w < 2 ^ 64) (hh : h < 2 ^ 64) :
    EncInv (ppmHeader w h) 0 ∧ (ppmHeader w h).getLast? = some '\n' := by
  have hbound : (2 : ℕ) ^ 64 < 10 ^ 20 := by norm_num
  have hwl : (decRepr w).length ≤ 20 :=
    decReprAux_length_le _ _ 20 (by omega) (by omega)
  have hhl : (decRepr h).length ≤ 20 :=
    decReprAux_length_le _ _ 20 (by omega) (by omega)
  have hmid_nl : '\n' ∉ decRepr w ++ [' '] ++ decRepr h := by
    simp only [List.mem_append, List.mem_singleton]
    rintro ((hm | hm) | hm)
    · exact newline_notMem_decRepr w hm
    · exact absurd hm (by decide)
    · exact newline_notMem_decRepr h hm
  have hlt : LinesTerm (ppmHeader w h) := by
    have e : ppmHeader w h = ['P', '3'] ++ '\n' ::
        ((decRepr w ++ [' '] ++ decRepr h) ++ '\n' ::
          (['2', '5', '5'] ++ '\n' :: ([] : List Char))) := by
      simp [ppmHeader, List.append_assoc]
    rw [e]
    refine LinesTerm.cons _ _ (by decide) (by decide) ?_
    refine LinesTerm.cons _ _ hmid_nl ?_ ?_
    · simp only [List.length_append, List.length_singleton]
      omega
    · exact LinesTerm.cons _ _ (by decide) (by decide) LinesTerm.nil
  refine ⟨⟨ppmHeader w h, [], by simp, hlt, by simp, rfl, by omega⟩, ?_⟩
  apply linesTerm_getLast _ hlt
  simp [ppmHeader]

/-- C7: for every canvas whose dimensions fit in a 64-bit `usize` and whose
data grid has `width*height` cells, the `to_ppm_str` output ends with a
trailing newline (so every line is newline-terminated) and no line — i.e.
no newline-free contiguous segment — exceeds 70 characters. -/
theorem claim_C7 (can : Canvas) (hw : can.width < 2 ^ 64)
    (hh : can.height < 2 ^ 64)
    (hlen : can.data.length = can.width * can.height) :
    (to_ppm_str can).data.getLast? = some '\n' ∧
      ∀ s, SubSeg s (to_ppm_str can).data → '\n' ∉ s → s.length ≤ 70 := by
  obtain ⟨hinv, hlast⟩ := header_inv can.width can.height hw hh
  have hmod : (0 + can.data.length) % can.width = 0 := by
    rw [hlen]
    simp [Nat.mul_mod_right]
  obtain ⟨hf1, hf2⟩ :=
    writePixels_inv can.width can.data (ppmHeader can.width can.height, 0) 0
      hinv hmod
  have hdata : (to_ppm_str can).data =
      (writePixels can.width (ppmHeader can.width can.height, 0) 0 can.data).1 :=
    rfl
  constructor
  · by_cases hd : can.data = []
    · rw [hdata, hd]
      simpa [writePixels] using hlast
    · rw [hdata]
      exact hf2 hd
  · intro s hseg hs
    rw [hdata] at hseg
    obtain ⟨done, cur, he, hdone, hcur, hclen, hcle⟩ := hf1
    obtain ⟨a, b, hab⟩ := hseg
    apply linesTerm_seg_bound done hdone cur hcur (by omega) a s b ?_ hs
    rw [← he, hab]
    simp [List.append_assoc]

theorem claim_C7_witness :
    (to_ppm_str (create_canvas 5 3)).data.getLast? = some '\n' ∧
      ∀ s, SubSeg s (to_ppm_str (create_canvas 5 3)).data → '\n' ∉ s →
        s.length ≤ 70 :=
  claim_C7 (create_canvas 5 3) (by decide) (by decide) (by decide)

theorem claim_C10_witness :
    (write_pixel (create_canvas 2 2) 1 1 ⟨2, 2, 2⟩ = none ↔
        2 * 2 ≤ 2 * 1 + 1) ∧
      (read_pixel (create_canvas 2 2) 1 1 = none ↔ 2 * 2 ≤ 2 * 1 + 1) ∧
      (∀ can2, write_pixel (create_canvas 2 2) 1 1 ⟨2, 2, 2⟩ = some can2 →
        can2.data = (create_canvas 2 2).data.set (2 * 1 + 1) ⟨2, 2, 2⟩) ∧
      (∃ can2, write_pixel (create_canvas 2 2) 2 0 ⟨1, 1, 1⟩ = some can2 ∧
        read_pixel can2 0 1 = some ⟨1, 1, 1⟩) :=
  claim_C10 (create_canvas 2 2) 1 1 ⟨2, 2, 2⟩ (by decide)

end

end RayTracing
